import Mathlib

/-!
Verification of the LRU cache in `src/lru_cache.py`.

The Python module wraps a function `func` in an LRU cache built on an
`OrderedDict`.  We embed the `OrderedDict` as an association list in
recency order: the head of the list is the least-recently-used entry
(the one `popitem(last=False)` removes) and the tail is the
most-recently-used end (where `move_to_end` places a key).

The wrapped computation may fail (raise); we model it as a function
`List K → Option V`, where `none` stands for a raised exception.  The
embedded `inner` therefore returns the new cache state, an
`Except Unit (Option V)` (`Except.error ()` models a propagated
exception, `Except.ok none` models Python falling off the end of the
function and returning `None`), and a `Nat` counting how many times the
wrapped computation was invoked during the call.
-/

namespace LruCache

variable {K V : Type} [DecidableEq K]

/-- Membership / indexing of the `OrderedDict`: the value stored at the
first occurrence of `key`, or `none` when `key not in cache`. -/
def lookupVal : List (K × V) → K → Option V
  | [], _ => none
  | (a, w) :: rest, k => if k = a then some w else lookupVal rest k

/-- `cache[key] = value` on an `OrderedDict`: replace the value in place
if the key is present (keeping its position), otherwise append the new
entry at the most-recently-used end. -/
def setItem : List (K × V) → K → V → List (K × V)
  | [], k, v => [(k, v)]
  | (a, w) :: rest, k, v =>
    if k = a then (a, v) :: rest else (a, w) :: setItem rest k v

/-- Remove the first entry whose key is `k` (helper for `move_to_end`). -/
def eraseKey : List (K × V) → K → List (K × V)
  | [], _ => []
  | (a, w) :: rest, k => if k = a then rest else (a, w) :: eraseKey rest k

/-- `cache.move_to_end(key)`: move the entry for `key` to the
most-recently-used end.  In the source it is only ever called right
after `cache[key] = value`, so the key is always present; we leave the
list unchanged in the unreachable absent case. -/
def moveToEnd (cache : List (K × V)) (key : K) : List (K × V) :=
  match lookupVal cache key with
  | none => cache
  | some v => eraseKey cache key ++ [(key, v)]

/-- `add_to_cache(maxsize, cache, key, value)` from the source:
`cache[key] = value`; `cache.move_to_end(key)`; then if
`len(cache) > maxsize`, `cache.popitem(last=False)` removes the entry
at the least-recently-used end. -/
def add_to_cache (maxsize : Int) (cache : List (K × V)) (key : K) (value : V) :
    List (K × V) :=
  let c1 := setItem cache key value
  let c2 := moveToEnd c1 key
  if maxsize < (c2.length : Int) then c2.drop 1 else c2

/-- The mutable state captured by the closures in `lru_cache`:
the `OrderedDict` `cache` and the `hits` / `misses` counters. -/
structure CacheState (K V : Type) where
  cache : List (K × V)
  hits : Nat
  misses : Nat
  deriving DecidableEq

/-- The state right after `lru_cache` sets up its closure variables:
`cache = OrderedDict()`, `hits = 0`, `misses = 0`.  The constructor
performs no validation of `maxsize`. -/
def initCache : CacheState K V := ⟨[], 0, 0⟩

/-- The `CacheInfo` namedtuple `(hits, misses, maxsize, currsize)`. -/
structure CacheInfo where
  hits : Nat
  misses : Nat
  maxsize : Int
  currsize : Nat
  deriving DecidableEq

/-- `cache_info()` from the source. -/
def cache_info (maxsize : Int) (s : CacheState K V) : CacheInfo :=
  ⟨s.hits, s.misses, maxsize, s.cache.length⟩

/-- `inner(*args)` from the source.  The `for key in args` loop ends in
an unconditional `return result`, so with no arguments the loop body
never runs and Python returns `None`; with at least one argument only
the first argument `key` is processed.  On a miss, `misses` is
incremented before `func(*args)` is called, so a failing computation
(`func args = none`) leaves the incremented miss behind with the cache
untouched.  The final `Nat` counts invocations of `func`. -/
def inner (maxsize : Int) (func : List K → Option V) (s : CacheState K V)
    (args : List K) : CacheState K V × Except Unit (Option V) × Nat :=
  match args with
  | [] => (s, Except.ok none, 0)
  | key :: _ =>
    match lookupVal s.cache key with
    | none =>
      match func args with
      | none => (⟨s.cache, s.hits, s.misses + 1⟩, Except.error (), 1)
      | some result =>
        (⟨add_to_cache maxsize s.cache key result, s.hits, s.misses + 1⟩,
          Except.ok (some result), 1)
    | some result =>
      (⟨add_to_cache maxsize s.cache key result, s.hits + 1, s.misses⟩,
        Except.ok (some result), 0)

/-- Run a sequence of calls to the wrapped function; each call supplies
its positional arguments and the behaviour of the wrapped computation
for that call. -/
def runCalls (maxsize : Int) (s : CacheState K V)
    (calls : List (List K × (List K → Option V))) : CacheState K V :=
  calls.foldl (fun t c => (inner maxsize c.2 t c.1).1) s

/-- Run a sequence of spec-level `get_or_compute` calls: each call has a
single key and a computation. -/
def runGet (maxsize : Int) (s : CacheState K V)
    (calls : List (K × (List K → Option V))) : CacheState K V :=
  calls.foldl (fun t c => (inner maxsize c.2 t [c.1]).1) s

/-! ### Supporting lemmas about the `OrderedDict` embedding -/

theorem setItem_of_absent (c : List (K × V)) (k : K) (v : V)
    (h : lookupVal c k = none) : setItem c k v = c ++ [(k, v)] := by
  induction c with
  | nil => rfl
  | cons hd tl ih =>
    obtain ⟨a, w⟩ := hd
    simp only [lookupVal] at h
    by_cases hk : k = a
    · simp [hk] at h
    · simp only [if_neg hk] at h
      simp [setItem, hk, ih h]

theorem setItem_of_present (c : List (K × V)) (k : K) (v : V)
    (h : lookupVal c k = some v) : setItem c k v = c := by
  induction c with
  | nil => simp [lookupVal] at h
  | cons hd tl ih =>
    obtain ⟨a, w⟩ := hd
    simp only [lookupVal] at h
    by_cases hk : k = a
    · simp only [if_pos hk] at h
      obtain rfl : w = v := by injection h
      simp [setItem, hk]
    · simp only [if_neg hk] at h
      simp [setItem, hk, ih h]

theorem lookupVal_append_left_absent (c l : List (K × V)) (k : K)
    (h : lookupVal c k = none) : lookupVal (c ++ l) k = lookupVal l k := by
  induction c with
  | nil => rfl
  | cons hd tl ih =>
    obtain ⟨a, w⟩ := hd
    simp only [lookupVal] at h
    by_cases hk : k = a
    · simp [hk] at h
    · simp only [if_neg hk] at h
      simp [lookupVal, hk, ih h]

theorem eraseKey_append_absent (c : List (K × V)) (k : K) (v : V)
    (h : lookupVal c k = none) : eraseKey (c ++ [(k, v)]) k = c := by
  induction c with
  | nil => simp [eraseKey]
  | cons hd tl ih =>
    obtain ⟨a, w⟩ := hd
    simp only [lookupVal] at h
    by_cases hk : k = a
    · simp [hk] at h
    · simp only [if_neg hk] at h
      simp [eraseKey, hk, ih h]

theorem length_eraseKey_of_present (c : List (K × V)) (k : K) (v : V)
    (h : lookupVal c k = some v) : (eraseKey c k).length + 1 = c.length := by
  induction c with
  | nil => simp [lookupVal] at h
  | cons hd tl ih =>
    obtain ⟨a, w⟩ := hd
    simp only [lookupVal] at h
    by_cases hk : k = a
    · simp [eraseKey, hk]
    · simp only [if_neg hk] at h
      simp [eraseKey, hk, ← ih h]

theorem length_moveToEnd (c : List (K × V)) (k : K) :
    (moveToEnd c k).length = c.length := by
  unfold moveToEnd
  cases h : lookupVal c k with
  | none => rfl
  | some v => simpa using length_eraseKey_of_present c k v h

theorem length_setItem_le (c : List (K × V)) (k : K) (v : V) :
    (setItem c k v).length ≤ c.length + 1 := by
  induction c with
  | nil => simp [setItem]
  | cons hd tl ih =>
    obtain ⟨a, w⟩ := hd
    by_cases hk : k = a
    · simp [setItem, hk]
    · simp only [setItem, if_neg hk, List.length_cons]
      omega

theorem length_add_to_cache_le (maxsize : Int) (c : List (K × V)) (k : K)
    (v : V) (h : (c.length : Int) ≤ maxsize) :
    ((add_to_cache maxsize c k v).length : Int) ≤ maxsize := by
  have h1 : (setItem c k v).length ≤ c.length + 1 := length_setItem_le c k v
  have h2 : (moveToEnd (setItem c k v) k).length = (setItem c k v).length :=
    length_moveToEnd _ _
  simp only [add_to_cache]
  split
  · rename_i hgt
    rw [List.length_drop]
    omega
  · rename_i hle
    omega

theorem inner_cache_length_le (maxsize : Int) (func : List K → Option V)
    (s : CacheState K V) (args : List K)
    (h : (s.cache.length : Int) ≤ maxsize) :
    (((inner maxsize func s args).1).cache.length : Int) ≤ maxsize := by
  cases args with
  | nil => exact h
  | cons key rest =>
    simp only [inner]
    cases hl : lookupVal s.cache key with
    | none =>
      cases hf : func (key :: rest) with
      | none => exact h
      | some v => exact length_add_to_cache_le maxsize s.cache key v h
    | some v => exact length_add_to_cache_le maxsize s.cache key v h

theorem runCalls_cache_length_le (maxsize : Int)
    (calls : List (List K × (List K → Option V))) (s : CacheState K V)
    (h : (s.cache.length : Int) ≤ maxsize) :
    ((runCalls maxsize s calls).cache.length : Int) ≤ maxsize := by
  induction calls generalizing s with
  | nil => exact h
  | cons c cs ih => exact ih _ (inner_cache_length_le maxsize c.2 s c.1 h)

theorem inner_counters_step (maxsize : Int) (func : List K → Option V)
    (s : CacheState K V) (key : K) (rest : List K) :
    (inner maxsize func s (key :: rest)).1.hits +
        (inner maxsize func s (key :: rest)).1.misses =
      s.hits + s.misses + 1 ∧
    s.hits ≤ (inner maxsize func s (key :: rest)).1.hits ∧
    s.misses ≤ (inner maxsize func s (key :: rest)).1.misses := by
  simp only [inner]
  cases lookupVal s.cache key with
  | none =>
    cases func (key :: rest) with
    | none => exact ⟨rfl, Nat.le_refl _, Nat.le_succ _⟩
    | some v => exact ⟨rfl, Nat.le_refl _, Nat.le_succ _⟩
  | some v =>
    refine ⟨?_, ?_, ?_⟩
    · show s.hits + 1 + s.misses = s.hits + s.misses + 1
      omega
    · show s.hits ≤ s.hits + 1
      omega
    · show s.misses ≤ s.misses
      omega

theorem runGet_counters (maxsize : Int)
    (calls : List (K × (List K → Option V))) (s : CacheState K V) :
    (runGet maxsize s calls).hits + (runGet maxsize s calls).misses =
      s.hits + s.misses + calls.length ∧
    s.hits ≤ (runGet maxsize s calls).hits ∧
    s.misses ≤ (runGet maxsize s calls).misses := by
  induction calls generalizing s with
  | nil => simp [runGet]
  | cons c cs ih =>
    obtain ⟨h1, h2, h3⟩ := inner_counters_step maxsize c.2 s c.1 []
    obtain ⟨g1, g2, g3⟩ := ih ((inner maxsize c.2 s [c.1]).1)
    have e : runGet maxsize s (c :: cs) =
        runGet maxsize ((inner maxsize c.2 s [c.1]).1) cs := rfl
    rw [e]
    refine ⟨by rw [g1]; simp [List.length_cons]; omega, by omega, by omega⟩

/-! ### Theorems settling the claims -/

/-- C2: for every cache constructed with positive capacity and every
sequence of calls to the wrapped function, after every completed call
(i.e. after every prefix of the sequence) the number of resident
entries is at most the capacity. -/
theorem capacity_invariant (maxsize : Int) (h : 0 < maxsize)
    (calls : List (List K × (List K → Option V))) (n : Nat) :
    (((runCalls maxsize (initCache (K := K) (V := V))
        (calls.take n)).cache.length : Int)) ≤ maxsize :=
  runCalls_cache_length_le maxsize (calls.take n) initCache
    (by simp [initCache]; omega)

theorem capacity_invariant_witness :
    (0 : Int) < 2 ∧
      (((runCalls 2 (initCache (K := Nat) (V := Nat))
          (([([0], fun _ => some 5), ([1], fun _ => some 6),
             ([2], fun _ => some 7)]).take 3)).cache.length : Int)) ≤ 2 :=
  ⟨by decide, capacity_invariant 2 (by decide) _ 3⟩

/-- C5: the hit and miss counters are non-decreasing across any
sequence of `get_or_compute` calls, and after any prefix of the
sequence `hits + misses` equals the number of calls made so far. -/
theorem stats_monotone_and_count_calls (maxsize : Int)
    (calls : List (K × (List K → Option V))) (n : Nat) :
    (runGet maxsize (initCache (K := K) (V := V)) (calls.take n)).hits +
        (runGet maxsize initCache (calls.take n)).misses =
      (calls.take n).length ∧
    (runGet maxsize (initCache (K := K) (V := V)) (calls.take n)).hits ≤
      (runGet maxsize initCache (calls.take (n + 1))).hits ∧
    (runGet maxsize (initCache (K := K) (V := V)) (calls.take n)).misses ≤
      (runGet maxsize initCache (calls.take (n + 1))).misses := by
  have hbase := runGet_counters maxsize (calls.take n)
    (initCache (K := K) (V := V))
  have hsucc : calls.take (n + 1) = calls.take n ++ (calls[n]?).toList :=
    List.take_succ
  have e : runGet maxsize (initCache (K := K) (V := V))
        (calls.take n ++ (calls[n]?).toList) =
      runGet maxsize (runGet maxsize initCache (calls.take n))
        ((calls[n]?).toList) := by
    simp only [runGet]
    exact List.foldl_append _ _ _ _
  have hmono := runGet_counters maxsize ((calls[n]?).toList)
    (runGet maxsize (initCache (K := K) (V := V)) (calls.take n))
  refine ⟨?_, ?_, ?_⟩
  · have h1 := hbase.1
    simpa [initCache] using h1
  · rw [hsucc, e]
    exact hmono.2.1
  · rw [hsucc, e]
    exact hmono.2.2

/-- C10: a call to the wrapped function with zero positional arguments
completes without error, returns `None`, never invokes the wrapped
computation, and leaves the cache, the recency order and both counters
unchanged, so `hits + misses` falls behind the number of calls made. -/
theorem zero_args_call_is_noop (maxsize : Int) (func : List K → Option V)
    (s : CacheState K V) :
    inner maxsize func s [] = (s, Except.ok none, 0) ∧
      (inner maxsize func s []).1.hits + (inner maxsize func s []).1.misses =
        s.hits + s.misses :=
  ⟨rfl, rfl⟩

omit [DecidableEq K] in
/-- C9: construction performs no validation of the capacity: for every
capacity, including zero and negative values, the constructor is total
and yields a cache whose `cache_info` reports zero hits, zero misses,
the given capacity and size zero. -/
theorem construction_never_validates_capacity (maxsize : Int) :
    cache_info maxsize (initCache (K := K) (V := V)) = ⟨0, 0, maxsize, 0⟩ :=
  rfl

/-- C8: with one or more positional arguments, only the first argument
acts as the cache key (the loop body returns after processing it),
while the wrapped computation, when invoked, receives the full argument
list: the call behaves exactly like a single-key call on the first
argument whose computation is `func` applied to all the arguments. -/
theorem only_first_arg_is_key (maxsize : Int) (func : List K → Option V)
    (s : CacheState K V) (key : K) (rest : List K) :
    inner maxsize func s (key :: rest) =
      inner maxsize (fun _ => func (key :: rest)) s [key] := by
  unfold inner
  rfl

theorem lookupVal_eq_none_of_not_mem (c : List (K × V)) (k : K)
    (h : k ∉ c.map Prod.fst) : lookupVal c k = none := by
  induction c with
  | nil => rfl
  | cons hd tl ih =>
    obtain ⟨a, w⟩ := hd
    simp only [List.map_cons, List.mem_cons] at h
    push_neg at h
    simp [lookupVal, h.1, ih h.2]

theorem lookupVal_eraseKey_self (c : List (K × V)) (k : K)
    (h : (c.map Prod.fst).Nodup) : lookupVal (eraseKey c k) k = none := by
  induction c with
  | nil => rfl
  | cons hd tl ih =>
    obtain ⟨a, w⟩ := hd
    simp only [List.map_cons, List.nodup_cons] at h
    by_cases hk : k = a
    · subst hk
      simp only [eraseKey, if_pos rfl]
      exact lookupVal_eq_none_of_not_mem tl k h.1
    · simp [eraseKey, hk, lookupVal, ih h.2]

/-- C3: a `get_or_compute` call for an absent key increments the miss
counter by one, invokes the wrapped computation exactly once, appends
the computed entry at the most-recently-used end, then, exactly when
the size exceeds the capacity, drops the single entry at the
least-recently-used end, and returns the computed value. -/
theorem miss_inserts_mru_and_evicts_lru (maxsize : Int)
    (func : List K → Option V) (s : CacheState K V) (key : K) (v : V)
    (habs : lookupVal s.cache key = none) (hf : func [key] = some v) :
    inner maxsize func s [key] =
      (⟨if maxsize < ((s.cache ++ [(key, v)]).length : Int)
          then (s.cache ++ [(key, v)]).drop 1
          else s.cache ++ [(key, v)],
        s.hits, s.misses + 1⟩, Except.ok (some v), 1) := by
  have h1 : setItem s.cache key v = s.cache ++ [(key, v)] :=
    setItem_of_absent _ _ _ habs
  have h2 : lookupVal (s.cache ++ [(key, v)]) key = some v := by
    rw [lookupVal_append_left_absent _ _ _ habs]
    simp [lookupVal]
  have h3 : eraseKey (s.cache ++ [(key, v)]) key = s.cache :=
    eraseKey_append_absent _ _ _ habs
  have h4 : moveToEnd (s.cache ++ [(key, v)]) key = s.cache ++ [(key, v)] := by
    simp only [moveToEnd, h2, h3]
  simp only [inner, habs, hf, add_to_cache, h1, h4]

theorem miss_inserts_mru_and_evicts_lru_witness :
    lookupVal (initCache (K := Nat) (V := Nat)).cache 0 = none ∧
    (fun _ : List Nat => some 7) [0] = some (7 : Nat) ∧
    inner 1 (fun _ => some 7) (initCache (K := Nat) (V := Nat)) [0] =
      (⟨if (1 : Int) <
            (((initCache (K := Nat) (V := Nat)).cache ++ [(0, 7)]).length : Int)
          then ((initCache (K := Nat) (V := Nat)).cache ++ [(0, 7)]).drop 1
          else (initCache (K := Nat) (V := Nat)).cache ++ [(0, 7)],
        (initCache (K := Nat) (V := Nat)).hits,
        (initCache (K := Nat) (V := Nat)).misses + 1⟩,
        Except.ok (some 7), 1) :=
  ⟨rfl, rfl, miss_inserts_mru_and_evicts_lru 1 _ _ 0 7 rfl rfl⟩

/-- C4: a `get_or_compute` call for a resident key increments the hit
counter by one, moves the key to the most-recently-used end, returns
the stored value without invoking the wrapped computation, leaves the
number of resident entries unchanged, and keeps the key resident with
the same value (so repeated calls stay hits and never invoke the
computation). -/
theorem hit_moves_key_to_mru (maxsize : Int) (func : List K → Option V)
    (s : CacheState K V) (key : K) (v : V)
    (hpres : lookupVal s.cache key = some v)
    (hnodup : (s.cache.map Prod.fst).Nodup)
    (hcap : (s.cache.length : Int) ≤ maxsize) :
    inner maxsize func s [key] =
      (⟨eraseKey s.cache key ++ [(key, v)], s.hits + 1, s.misses⟩,
        Except.ok (some v), 0) ∧
    (eraseKey s.cache key ++ [(key, v)]).length = s.cache.length ∧
    lookupVal (eraseKey s.cache key ++ [(key, v)]) key = some v := by
  have h1 : setItem s.cache key v = s.cache := setItem_of_present _ _ _ hpres
  have h2 : moveToEnd s.cache key = eraseKey s.cache key ++ [(key, v)] := by
    simp only [moveToEnd, hpres]
  have hlen : (eraseKey s.cache key).length + 1 = s.cache.length :=
    length_eraseKey_of_present _ _ _ hpres
  have hlen2 : (eraseKey s.cache key ++ [(key, v)]).length = s.cache.length := by
    simp [List.length_append, hlen]
  have hnotabs : lookupVal (eraseKey s.cache key) key = none :=
    lookupVal_eraseKey_self _ _ hnodup
  have hlook : lookupVal (eraseKey s.cache key ++ [(key, v)]) key = some v := by
    rw [lookupVal_append_left_absent _ _ _ hnotabs]
    simp [lookupVal]
  refine ⟨?_, hlen2, hlook⟩
  have hcond : ¬ maxsize < ((eraseKey s.cache key ++ [(key, v)]).length : Int) := by
    rw [hlen2]
    omega
  simp only [inner, hpres, add_to_cache, h1, h2, if_neg hcond]

theorem hit_moves_key_to_mru_witness :
    lookupVal ([((0 : Nat), (7 : Nat))]) 0 = some 7 ∧
    (([((0 : Nat), (7 : Nat))]).map Prod.fst).Nodup ∧
    (([((0 : Nat), (7 : Nat))]).length : Int) ≤ 1 ∧
    (inner 1 (fun _ => some 9)
        (⟨[(0, 7)], 0, 1⟩ : CacheState Nat Nat) [0] =
      (⟨eraseKey [(0, 7)] 0 ++ [(0, 7)], 0 + 1, 1⟩, Except.ok (some 7), 0) ∧
    (eraseKey ([((0 : Nat), (7 : Nat))]) 0 ++ [(0, 7)]).length =
      ([((0 : Nat), (7 : Nat))]).length ∧
    lookupVal (eraseKey ([((0 : Nat), (7 : Nat))]) 0 ++ [(0, 7)]) 0 = some 7) :=
  ⟨rfl, by decide, by decide,
    hit_moves_key_to_mru 1 (fun _ => some 9) ⟨[(0, 7)], 0, 1⟩ 0 7 rfl
      (by decide) (by decide)⟩

/-- C6: when the wrapped computation fails during a call for an absent
key, the error propagates to the caller, the cache contents and
recency order are exactly what they were before the call, the
computation was invoked exactly once, and the miss counter (already
incremented before the computation ran) records one phantom miss. -/
theorem compute_failure_leaves_cache_unchanged (maxsize : Int)
    (func : List K → Option V) (s : CacheState K V) (key : K)
    (habs : lookupVal s.cache key = none) (hf : func [key] = none) :
    inner maxsize func s [key] =
      (⟨s.cache, s.hits, s.misses + 1⟩, Except.error (), 1) := by
  simp only [inner, habs, hf]

theorem compute_failure_leaves_cache_unchanged_witness :
    lookupVal ([((5 : Nat), (1 : Nat))]) 0 = none ∧
    (fun _ : List Nat => (none : Option Nat)) [0] = none ∧
    inner 3 (fun _ => none) (⟨[(5, 1)], 2, 4⟩ : CacheState Nat Nat) [0] =
      (⟨[(5, 1)], 2, 4 + 1⟩, Except.error (), 1) :=
  ⟨rfl, rfl,
    compute_failure_leaves_cache_unchanged 3 (fun _ => none)
      ⟨[(5, 1)], 2, 4⟩ 0 rfl rfl⟩

/-- C7: with capacity 1 and distinct keys `K1`, `K2`, requesting `K1`
and then `K2` leaves exactly `K2` resident (size 1, `K1` absent), and
a subsequent request for `K1` is a miss. -/
theorem capacity_one_keeps_only_latest (K1 K2 : K) (hne : K1 ≠ K2)
    (v1 v2 : V) (f3 : List K → Option V) :
    (runGet 1 (initCache (K := K) (V := V))
        [(K1, fun _ => some v1), (K2, fun _ => some v2)]).cache = [(K2, v2)] ∧
    lookupVal (runGet 1 (initCache (K := K) (V := V))
        [(K1, fun _ => some v1), (K2, fun _ => some v2)]).cache K1 = none ∧
    (inner 1 f3 (runGet 1 (initCache (K := K) (V := V))
        [(K1, fun _ => some v1), (K2, fun _ => some v2)]) [K1]).1.misses =
      (runGet 1 (initCache (K := K) (V := V))
        [(K1, fun _ => some v1), (K2, fun _ => some v2)]).misses + 1 := by
  have e : runGet 1 (initCache (K := K) (V := V))
      [(K1, fun _ => some v1), (K2, fun _ => some v2)] =
      ⟨[(K2, v2)], 0, 2⟩ := by
    simp [runGet, inner, initCache, lookupVal, add_to_cache, setItem,
      moveToEnd, eraseKey, Ne.symm hne]
  rw [e]
  refine ⟨rfl, by simp [lookupVal, hne], ?_⟩
  cases hf : f3 [K1] with
  | none => simp [inner, lookupVal, hne, hf]
  | some v => simp [inner, lookupVal, hne, hf]

theorem capacity_one_keeps_only_latest_witness :
    (0 : Nat) ≠ 1 ∧
    ((runGet 1 (initCache (K := Nat) (V := Nat))
        [(0, fun _ => some 10), (1, fun _ => some 20)]).cache = [(1, 20)] ∧
    lookupVal (runGet 1 (initCache (K := Nat) (V := Nat))
        [(0, fun _ => some 10), (1, fun _ => some 20)]).cache 0 = none ∧
    (inner 1 (fun _ => some 30) (runGet 1 (initCache (K := Nat) (V := Nat))
        [(0, fun _ => some 10), (1, fun _ => some 20)]) [0]).1.misses =
      (runGet 1 (initCache (K := Nat) (V := Nat))
        [(0, fun _ => some 10), (1, fun _ => some 20)]).misses + 1) :=
  ⟨by decide,
    capacity_one_keeps_only_latest 0 1 (by decide) 10 20 (fun _ => some 30)⟩

/-- C1: with capacity 2 and distinct keys `A`, `B`, `C`, the sequence
of requests A, B, A, C, B yields miss, miss, hit, miss, miss; the
fourth call evicts `B` and not `A`; and after each call the stats
`(hits, misses, capacity, current_size)` are exactly `(0,1,2,1)`,
`(0,2,2,2)`, `(1,2,2,2)`, `(1,3,2,2)`, `(1,4,2,2)`. -/
theorem lru_eviction_trace (A B C : K) (hAB : A ≠ B) (hAC : A ≠ C)
    (hBC : B ≠ C) (va vb vc vb2 : V) :
    cache_info 2 (runGet 2 (initCache (K := K) (V := V))
        [(A, fun _ => some va)]) = ⟨0, 1, 2, 1⟩ ∧
    cache_info 2 (runGet 2 (initCache (K := K) (V := V))
        [(A, fun _ => some va), (B, fun _ => some vb)]) = ⟨0, 2, 2, 2⟩ ∧
    cache_info 2 (runGet 2 (initCache (K := K) (V := V))
        [(A, fun _ => some va), (B, fun _ => some vb),
         (A, fun _ => some va)]) = ⟨1, 2, 2, 2⟩ ∧
    cache_info 2 (runGet 2 (initCache (K := K) (V := V))
        [(A, fun _ => some va), (B, fun _ => some vb),
         (A, fun _ => some va), (C, fun _ => some vc)]) = ⟨1, 3, 2, 2⟩ ∧
    lookupVal (runGet 2 (initCache (K := K) (V := V))
        [(A, fun _ => some va), (B, fun _ => some vb),
         (A, fun _ => some va), (C, fun _ => some vc)]).cache B = none ∧
    lookupVal (runGet 2 (initCache (K := K) (V := V))
        [(A, fun _ => some va), (B, fun _ => some vb),
         (A, fun _ => some va), (C, fun _ => some vc)]).cache A = some va ∧
    cache_info 2 (runGet 2 (initCache (K := K) (V := V))
        [(A, fun _ => some va), (B, fun _ => some vb),
         (A, fun _ => some va), (C, fun _ => some vc),
         (B, fun _ => some vb2)]) = ⟨1, 4, 2, 2⟩ := by
  have e1 : runGet 2 (initCache (K := K) (V := V))
      [(A, fun _ => some va)] = ⟨[(A, va)], 0, 1⟩ := by
    simp [runGet, inner, initCache, lookupVal, add_to_cache, setItem,
      moveToEnd, eraseKey]
  have e2 : runGet 2 (initCache (K := K) (V := V))
      [(A, fun _ => some va), (B, fun _ => some vb)] =
      ⟨[(A, va), (B, vb)], 0, 2⟩ := by
    simp [runGet, inner, initCache, lookupVal, add_to_cache, setItem,
      moveToEnd, eraseKey, Ne.symm hAB]
  have e3 : runGet 2 (initCache (K := K) (V := V))
      [(A, fun _ => some va), (B, fun _ => some vb),
       (A, fun _ => some va)] = ⟨[(B, vb), (A, va)], 1, 2⟩ := by
    simp [runGet, inner, initCache, lookupVal, add_to_cache, setItem,
      moveToEnd, eraseKey, Ne.symm hAB, hAB]
  have e4 : runGet 2 (initCache (K := K) (V := V))
      [(A, fun _ => some va), (B, fun _ => some vb),
       (A, fun _ => some va), (C, fun _ => some vc)] =
      ⟨[(A, va), (C, vc)], 1, 3⟩ := by
    simp [runGet, inner, initCache, lookupVal, add_to_cache, setItem,
      moveToEnd, eraseKey, Ne.symm hAB, hAB, Ne.symm hAC, Ne.symm hBC]
  have e5 : runGet 2 (initCache (K := K) (V := V))
      [(A, fun _ => some va), (B, fun _ => some vb),
       (A, fun _ => some va), (C, fun _ => some vc),
       (B, fun _ => some vb2)] = ⟨[(C, vc), (B, vb2)], 1, 4⟩ := by
    simp [runGet, inner, initCache, lookupVal, add_to_cache, setItem,
      moveToEnd, eraseKey, Ne.symm hAB, hAB, Ne.symm hAC, Ne.symm hBC,
      hBC, hAC]
  rw [e1, e2, e3, e4, e5]
  refine ⟨rfl, rfl, rfl, rfl, ?_, ?_, rfl⟩
  · simp [lookupVal, Ne.symm hAB, hBC]
  · simp [lookupVal]

theorem lru_eviction_trace_witness :
    (0 : Nat) ≠ 1 ∧ (0 : Nat) ≠ 2 ∧ (1 : Nat) ≠ 2 ∧
    (cache_info 2 (runGet 2 (initCache (K := Nat) (V := Nat))
        [(0, fun _ => some 10)]) = ⟨0, 1, 2, 1⟩ ∧
    cache_info 2 (runGet 2 (initCache (K := Nat) (V := Nat))
        [(0, fun _ => some 10), (1, fun _ => some 20)]) = ⟨0, 2, 2, 2⟩ ∧
    cache_info 2 (runGet 2 (initCache (K := Nat) (V := Nat))
        [(0, fun _ => some 10), (1, fun _ => some 20),
         (0, fun _ => some 10)]) = ⟨1, 2, 2, 2⟩ ∧
    cache_info 2 (runGet 2 (initCache (K := Nat) (V := Nat))
        [(0, fun _ => some 10), (1, fun _ => some 20),
         (0, fun _ => some 10), (2, fun _ => some 30)]) = ⟨1, 3, 2, 2⟩ ∧
    lookupVal (runGet 2 (initCache (K := Nat) (V := Nat))
        [(0, fun _ => some 10), (1, fun _ => some 20),
         (0, fun _ => some 10), (2, fun _ => some 30)]).cache 1 = none ∧
    lookupVal (runGet 2 (initCache (K := Nat) (V := Nat))
        [(0, fun _ => some 10), (1, fun _ => some 20),
         (0, fun _ => some 10), (2, fun _ => some 30)]).cache 0 = some 10 ∧
    cache_info 2 (runGet 2 (initCache (K := Nat) (V := Nat))
        [(0, fun _ => some 10), (1, fun _ => some 20),
         (0, fun _ => some 10), (2, fun _ => some 30),
         (1, fun _ => some 40)]) = ⟨1, 4, 2, 2⟩) :=
  ⟨by decide, by decide, by decide,
    lru_eviction_trace 0 1 2 (by decide) (by decide) (by decide) 10 20 30 40⟩

end LruCache
